import Mathlib

/-!
Register-level model of `examples/embedded-arm/main.c`.

The program enables the GPIOC clock, configures pin PC13 as a 2 MHz push-pull
output and then toggles the pin forever with a busy-wait between toggles.

Machine integers are modelled as `Nat` (for `uint32_t`) and `Int` (for the
`int` constant expressions) with the conversions of C written out.  The three
memory-mapped registers form the state; `main` is a step function over
(program point, registers) that also emits the volatile accesses and `nop`s
it performs; `delay` is a total function.
-/

namespace EmbeddedArm

/-! ## Machine arithmetic -/

/-- Number of values of a `uint32_t`. -/
def UINT32_MOD : Nat := 4294967296

/-- Conversion of a natural number to `uint32_t` (reduction modulo `2^32`). -/
def u32 (n : Nat) : Nat := n % 4294967296

/-- Conversion of an `int` value to `uint32_t` (reduction modulo `2^32`). -/
def intToU32 (z : Int) : Nat := (z % 4294967296).toNat

/-- The C expression `a << n` on `int`, for values that do not overflow. -/
def shl (a : Int) (n : Nat) : Int := a * 2 ^ n

/-- The C expression `~a` on `int` (two's complement). -/
def bnot (a : Int) : Int := -a - 1

/-! ## Registers -/

/-- The three memory-mapped registers named by the `#define`s. -/
inductive Reg where
  | RCC_APB2ENR
  | GPIOC_CRH
  | GPIOC_ODR
deriving DecidableEq, Repr

/-- Physical address of each register. -/
def Reg.addr : Reg → Nat
  | .RCC_APB2ENR => 0x40021018
  | .GPIOC_CRH => 0x40011004
  | .GPIOC_ODR => 0x4001100C

/-- Contents of the three registers. -/
structure Regs where
  RCC_APB2ENR : Nat
  GPIOC_CRH : Nat
  GPIOC_ODR : Nat
deriving DecidableEq, Repr

/-- Volatile read of a register. -/
def Regs.read (m : Regs) : Reg → Nat
  | .RCC_APB2ENR => m.RCC_APB2ENR
  | .GPIOC_CRH => m.GPIOC_CRH
  | .GPIOC_ODR => m.GPIOC_ODR

/-- Volatile write of a register; the stored value is a `uint32_t`. -/
def Regs.write (m : Regs) (r : Reg) (v : Nat) : Regs :=
  match r with
  | .RCC_APB2ENR => { m with RCC_APB2ENR := u32 v }
  | .GPIOC_CRH => { m with GPIOC_CRH := u32 v }
  | .GPIOC_ODR => { m with GPIOC_ODR := u32 v }

/-- Observable actions: volatile register accesses and the `nop` instruction. -/
inductive Event where
  | read (r : Reg) (v : Nat)
  | write (r : Reg) (v : Nat)
  | nop
deriving DecidableEq, Repr

/-- Register an event accesses, if any. -/
def Event.reg : Event → Option Reg
  | .read r _ => some r
  | .write r _ => some r
  | .nop => none

/-- Statement `R |= e` with `R` a `uint32_t` register and `e` an `int`. -/
def orAssign (m : Regs) (r : Reg) (e : Int) : Regs × List Event :=
  let v := m.read r
  let w := u32 (v ||| intToU32 e)
  (m.write r w, [Event.read r v, Event.write r w])

/-- Statement `R &= e` with `R` a `uint32_t` register and `e` an `int`. -/
def andAssign (m : Regs) (r : Reg) (e : Int) : Regs × List Event :=
  let v := m.read r
  let w := u32 (v &&& intToU32 e)
  (m.write r w, [Event.read r v, Event.write r w])

/-- Statement `R ^= e` with `R` a `uint32_t` register and `e` an `int`. -/
def xorAssign (m : Regs) (r : Reg) (e : Int) : Regs × List Event :=
  let v := m.read r
  let w := u32 (v ^^^ intToU32 e)
  (m.write r w, [Event.read r v, Event.write r w])

/-! ## `delay` -/

/-- Outcome of a call of `delay`: the value left in the parameter `count`
when the loop exits and the `nop`s executed. -/
structure DelayResult where
  count : Nat
  trace : List Event
deriving DecidableEq, Repr

/-- The loop `while (count--) { nop }` for a counter of an unsigned type with
`modulus` values, started with the given counter value: the condition reads
the counter, stores the decremented value (modulo `modulus`) and tests the
value read. -/
def delayLoopAt (modulus : Nat) (count : Nat) : DelayResult :=
  if h : count ≠ 0 then
    let r := delayLoopAt modulus ((count + modulus - 1) % modulus)
    { r with trace := Event.nop :: r.trace }
  else
    { count := (count + modulus - 1) % modulus, trace := [] }
termination_by count
decreasing_by
  rcases Nat.eq_zero_or_pos modulus with rfl | hw
  · simp only [Nat.add_zero, Nat.mod_zero]
    omega
  · rcases Nat.lt_or_ge count modulus with hlt | hge
    · have hs : count + modulus - 1 = (count - 1) + modulus := by omega
      rw [hs, Nat.add_mod_right, Nat.mod_eq_of_lt (by omega)]
      omega
    · exact Nat.lt_of_lt_of_le (Nat.mod_lt _ hw) hge

/-- The loop of `delay`, whose counter is a `uint32_t`. -/
def delayLoop (count : Nat) : DelayResult :=
  delayLoopAt UINT32_MOD count

/-- The function `delay`: the argument is converted to the `uint32_t`
parameter, then the loop runs. -/
def delay (count : Nat) : DelayResult :=
  delayLoop (u32 count)

/-- The loop of `delay` run with a bound on the number of evaluations of its
condition; `none` when the bound is reached before the loop exits. -/
def delayLoopFuel : Nat → Nat → Option DelayResult
  | 0, _ => none
  | fuel + 1, count =>
    if count ≠ 0 then
      (delayLoopFuel fuel ((count + UINT32_MOD - 1) % UINT32_MOD)).map
        fun r => { r with trace := Event.nop :: r.trace }
    else
      some { count := (count + UINT32_MOD - 1) % UINT32_MOD, trace := [] }

/-! ## `main` -/

/-- Program points of `main`, named by source line; `returned` is the state
after `return 0`. -/
inductive PC where
  | L24
  | L27
  | L28
  | L31
  | L32
  | L33
  | L36
  | returned
deriving DecidableEq, Repr

/-- Phases of the control loop. -/
inductive Phase where
  | Configuring
  | Blinking
  | Returned
deriving DecidableEq, Repr

/-- Phase a program point belongs to. -/
def PC.phase : PC → Phase
  | .L24 => .Configuring
  | .L27 => .Configuring
  | .L28 => .Configuring
  | .L31 => .Blinking
  | .L32 => .Blinking
  | .L33 => .Blinking
  | .L36 => .Returned
  | .returned => .Returned

/-- Machine state: program point and register contents. -/
structure State where
  pc : PC
  regs : Regs
deriving DecidableEq, Repr

/-- Entry of `main` with the given register contents. -/
def entry (m : Regs) : State := { pc := .L24, regs := m }

/-- One statement of `main`: the successor state and the events emitted. -/
def mainStep (s : State) : State × List Event :=
  match s.pc with
  | .L24 =>
    let r := orAssign s.regs .RCC_APB2ENR (shl 1 4)
    ({ pc := .L27, regs := r.1 }, r.2)
  | .L27 =>
    let r := andAssign s.regs .GPIOC_CRH (bnot (shl 0xF 20))
    ({ pc := .L28, regs := r.1 }, r.2)
  | .L28 =>
    let r := orAssign s.regs .GPIOC_CRH (shl 0x2 20)
    ({ pc := .L31, regs := r.1 }, r.2)
  | .L31 =>
    if (1 : Int) ≠ 0 then ({ s with pc := .L32 }, []) else ({ s with pc := .L36 }, [])
  | .L32 =>
    let r := xorAssign s.regs .GPIOC_ODR (shl 1 13)
    ({ pc := .L33, regs := r.1 }, r.2)
  | .L33 =>
    let d := delay 500000
    ({ s with pc := .L31 }, d.trace)
  | .L36 => ({ s with pc := .returned }, [])
  | .returned => (s, [])

/-- State after `n` statements of `main`. -/
def run : Nat → State → State
  | 0, s => s
  | n + 1, s => run n (mainStep s).1

/-- Events emitted by the first `n` statements of `main`. -/
def trace : Nat → State → List Event
  | 0, _ => []
  | n + 1, s => (mainStep s).2 ++ trace n (mainStep s).1

/-- The three configuration statements of `main` (lines 24 to 28). -/
def configure (m : Regs) : Regs :=
  (run 3 (entry m)).regs

/-- The toggle statement of the loop body (line 32). -/
def toggle (m : Regs) : Regs :=
  (xorAssign m .GPIOC_ODR (shl 1 13)).1

/-- An event is a write to the pin-data register. -/
def Event.isToggle : Event → Bool
  | .write .GPIOC_ODR _ => true
  | _ => false

/-- Effect of an event on the registers: a write stores its value, a read or a
`nop` changes nothing. -/
def Event.effect (m : Regs) : Event → Regs
  | .write r v => m.write r v
  | .read _ _ => m
  | .nop => m

/-- Registers after a sequence of events, applied in order. -/
def Regs.replay (m : Regs) (es : List Event) : Regs :=
  es.foldl Event.effect m

/-! ## Facts about `delay` -/

theorem u32_of_lt {n : Nat} (h : n < 4294967296) : u32 n = n :=
  Nat.mod_eq_of_lt h

theorem u32_lt (n : Nat) : u32 n < 4294967296 :=
  Nat.mod_lt n (by norm_num)

theorem u32_idem (n : Nat) : u32 (u32 n) = u32 n :=
  u32_of_lt (u32_lt n)

theorem dec32_succ (n : Nat) (h : n + 1 < 4294967296) :
    (n + 1 + UINT32_MOD - 1) % UINT32_MOD = n := by
  simp only [UINT32_MOD]
  omega

theorem delayLoop_zero : delayLoop 0 = { count := 4294967295, trace := [] } := by
  rw [delayLoop, delayLoopAt]
  simp [UINT32_MOD]

theorem delayLoop_succ (n : Nat) (h : n + 1 < 4294967296) :
    delayLoop (n + 1) = { delayLoop n with trace := Event.nop :: (delayLoop n).trace } := by
  rw [delayLoop, delayLoopAt, dif_pos (Nat.succ_ne_zero n), dec32_succ n h]
  rfl

theorem delayLoop_eq (n : Nat) (h : n < 4294967296) :
    delayLoop n = { count := 4294967295, trace := List.replicate n Event.nop } := by
  induction n with
  | zero => simpa using delayLoop_zero
  | succ k ih =>
    rw [delayLoop_succ k h, ih (by omega)]
    simp [List.replicate_succ]

theorem delay_eq (count : Nat) :
    delay count = { count := 4294967295, trace := List.replicate (u32 count) Event.nop } :=
  delayLoop_eq (u32 count) (u32_lt count)

theorem delayLoopFuel_eq (n extra : Nat) (h : n < 4294967296) :
    delayLoopFuel (extra + (n + 1)) n = some (delayLoop n) := by
  induction n with
  | zero =>
    rw [delayLoop_zero]
    simp [delayLoopFuel, UINT32_MOD]
  | succ k ih =>
    rw [← Nat.add_assoc, delayLoopFuel, if_pos (Nat.succ_ne_zero k), dec32_succ k h,
      ih (by omega), delayLoop_succ k h]
    rfl

theorem delayLoopFuel_short (fuel n : Nat) (h : n < 4294967296) (hf : fuel ≤ n) :
    delayLoopFuel fuel n = none := by
  induction fuel generalizing n with
  | zero => rfl
  | succ f ih =>
    obtain ⟨k, rfl⟩ : ∃ k, n = k + 1 := ⟨n - 1, by omega⟩
    rw [delayLoopFuel, if_pos (Nat.succ_ne_zero k), dec32_succ k h, ih k (by omega) (by omega)]
    rfl

/-! ## Constants of `main` and bit-level facts -/

theorem const_IOPCEN : intToU32 (shl 1 4) = 16 := by decide

theorem const_clear : intToU32 (bnot (shl 0xF 20)) = 4279238655 := by decide

theorem const_mode : intToU32 (shl 0x2 20) = 2097152 := by decide

theorem const_pin : intToU32 (shl 1 13) = 8192 := by decide

theorem or_lt32 {a b : Nat} (ha : a < 4294967296) (hb : b < 4294967296) :
    a ||| b < 4294967296 :=
  Nat.or_lt_two_pow (show a < 2 ^ 32 from ha) (show b < 2 ^ 32 from hb)

theorem and_lt32 (a : Nat) {b : Nat} (hb : b < 4294967296) : a &&& b < 4294967296 :=
  Nat.and_lt_two_pow a (show b < 2 ^ 32 from hb)

theorem xor_lt32 {a b : Nat} (ha : a < 4294967296) (hb : b < 4294967296) :
    a ^^^ b < 4294967296 :=
  Nat.xor_lt_two_pow (show a < 2 ^ 32 from ha) (show b < 2 ^ 32 from hb)

theorem testBit_u32 (x i : Nat) : (u32 x).testBit i = (decide (i < 32) && x.testBit i) :=
  Nat.testBit_mod_two_pow x 32 i

theorem testBit_16 (i : Nat) : Nat.testBit 16 i = decide (4 = i) :=
  @Nat.testBit_two_pow 4 i

theorem testBit_8192 (i : Nat) : Nat.testBit 8192 i = decide (13 = i) :=
  @Nat.testBit_two_pow 13 i

theorem testBit_2097152 (i : Nat) : Nat.testBit 2097152 i = decide (21 = i) :=
  @Nat.testBit_two_pow 21 i

theorem testBit_of_lt32 {x i : Nat} (hx : x < 4294967296) (hi : 32 ≤ i) :
    x.testBit i = false :=
  Nat.testBit_lt_two_pow
    (Nat.lt_of_lt_of_le (show x < 2 ^ 32 from hx) (Nat.pow_le_pow_right (by decide) hi))

theorem testBit_clear (i : Nat) :
    Nat.testBit 4279238655 i = (decide (i < 32) && !(decide (20 ≤ i) && decide (i < 24))) := by
  by_cases hi : i < 32
  · interval_cases i <;> decide
  · rw [testBit_of_lt32 (by norm_num) (by omega)]
    simp [hi]

/-! ## The statements of `main`, one by one -/

theorem mainStep_L24 (m : Regs) :
    mainStep ⟨.L24, m⟩ =
      (⟨.L27, { m with RCC_APB2ENR := u32 (m.RCC_APB2ENR ||| 16) }⟩,
        [.read .RCC_APB2ENR m.RCC_APB2ENR, .write .RCC_APB2ENR (u32 (m.RCC_APB2ENR ||| 16))]) := by
  simp [mainStep, orAssign, Regs.read, Regs.write, const_IOPCEN, u32_idem]

theorem mainStep_L27 (m : Regs) :
    mainStep ⟨.L27, m⟩ =
      (⟨.L28, { m with GPIOC_CRH := u32 (m.GPIOC_CRH &&& 4279238655) }⟩,
        [.read .GPIOC_CRH m.GPIOC_CRH, .write .GPIOC_CRH (u32 (m.GPIOC_CRH &&& 4279238655))]) := by
  simp [mainStep, andAssign, Regs.read, Regs.write, const_clear, u32_idem]

theorem mainStep_L28 (m : Regs) :
    mainStep ⟨.L28, m⟩ =
      (⟨.L31, { m with GPIOC_CRH := u32 (m.GPIOC_CRH ||| 2097152) }⟩,
        [.read .GPIOC_CRH m.GPIOC_CRH, .write .GPIOC_CRH (u32 (m.GPIOC_CRH ||| 2097152))]) := by
  simp [mainStep, orAssign, Regs.read, Regs.write, const_mode, u32_idem]

theorem mainStep_L31 (m : Regs) : mainStep ⟨.L31, m⟩ = (⟨.L32, m⟩, []) := by
  simp [mainStep]

theorem mainStep_L32 (m : Regs) :
    mainStep ⟨.L32, m⟩ =
      (⟨.L33, { m with GPIOC_ODR := u32 (m.GPIOC_ODR ^^^ 8192) }⟩,
        [.read .GPIOC_ODR m.GPIOC_ODR, .write .GPIOC_ODR (u32 (m.GPIOC_ODR ^^^ 8192))]) := by
  simp [mainStep, xorAssign, Regs.read, Regs.write, const_pin, u32_idem]

theorem mainStep_L33 (m : Regs) :
    mainStep ⟨.L33, m⟩ = (⟨.L31, m⟩, (delay 500000).trace) := by
  simp [mainStep]

theorem delay_trace_nop (count : Nat) (e : Event) (he : e ∈ (delay count).trace) :
    e = Event.nop := by
  rw [delay_eq] at he
  exact List.eq_of_mem_replicate he

theorem toggle_eq (m : Regs) :
    toggle m = { m with GPIOC_ODR := u32 (m.GPIOC_ODR ^^^ 8192) } := by
  simp [toggle, xorAssign, Regs.read, Regs.write, const_pin, u32_idem]

theorem run_configure (m : Regs) : run 3 (entry m) = ⟨.L31, configure m⟩ := by
  simp [configure, run, entry, mainStep_L24, mainStep_L27, mainStep_L28]

theorem configure_eq (m : Regs) :
    configure m =
      { RCC_APB2ENR := u32 (m.RCC_APB2ENR ||| 16),
        GPIOC_CRH := u32 (u32 (m.GPIOC_CRH &&& 4279238655) ||| 2097152),
        GPIOC_ODR := m.GPIOC_ODR } := by
  simp [configure, run, entry, mainStep_L24, mainStep_L27, mainStep_L28]

theorem run_add (a b : Nat) (s : State) : run (a + b) s = run b (run a s) := by
  induction a generalizing s with
  | zero => simp [run]
  | succ k ih =>
    rw [Nat.add_right_comm]
    simp [run, ih]

theorem trace_add (a b : Nat) (s : State) :
    trace (a + b) s = trace a s ++ trace b (run a s) := by
  induction a generalizing s with
  | zero => simp [run, trace]
  | succ k ih =>
    rw [Nat.add_right_comm]
    simp [run, trace, ih]

/-- One iteration of the loop body: condition, toggle, delay. -/
theorem run_iteration (m : Regs) : run 3 ⟨.L31, m⟩ = ⟨.L31, toggle m⟩ := by
  simp [run, mainStep_L31, mainStep_L32, mainStep_L33, toggle_eq]

theorem run_iterations (k : Nat) (m : Regs) :
    run (3 * k) ⟨.L31, m⟩ = ⟨.L31, toggle^[k] m⟩ := by
  induction k generalizing m with
  | zero => rfl
  | succ j ih =>
    have h3 : 3 * (j + 1) = 3 + 3 * j := by omega
    rw [h3, run_add, run_iteration, ih, Function.iterate_succ_apply]

/-! ## Invariants of the execution of `main` -/

theorem trace_configure (m : Regs) :
    trace 3 (entry m) =
      [.read .RCC_APB2ENR m.RCC_APB2ENR,
        .write .RCC_APB2ENR (u32 (m.RCC_APB2ENR ||| 16)),
        .read .GPIOC_CRH m.GPIOC_CRH,
        .write .GPIOC_CRH (u32 (m.GPIOC_CRH &&& 4279238655)),
        .read .GPIOC_CRH (u32 (m.GPIOC_CRH &&& 4279238655)),
        .write .GPIOC_CRH (u32 (u32 (m.GPIOC_CRH &&& 4279238655) ||| 2097152))] := by
  simp [trace, entry, mainStep_L24, mainStep_L27, mainStep_L28]

theorem trace_iteration (m : Regs) :
    trace 3 ⟨.L31, m⟩ =
      [.read .GPIOC_ODR m.GPIOC_ODR, .write .GPIOC_ODR (u32 (m.GPIOC_ODR ^^^ 8192))] ++
        (delay 500000).trace := by
  simp [trace, mainStep_L31, mainStep_L32, mainStep_L33]

/-- A statement of the Blinking phase stays in the phase, changes neither the
clock-enable nor the pin-configuration register, and emits only `nop`s and
accesses to the pin-data register. -/
theorem mainStep_blinking (s : State) (h : s.pc.phase = .Blinking) :
    (mainStep s).1.pc.phase = .Blinking ∧
    (mainStep s).1.regs.RCC_APB2ENR = s.regs.RCC_APB2ENR ∧
    (mainStep s).1.regs.GPIOC_CRH = s.regs.GPIOC_CRH ∧
    ∀ e ∈ (mainStep s).2, e.reg = none ∨ e.reg = some .GPIOC_ODR := by
  obtain ⟨pc, m⟩ := s
  cases pc <;> simp [PC.phase] at h
  · rw [mainStep_L31]
    simp [PC.phase]
  · rw [mainStep_L32]
    simp [PC.phase, Event.reg]
  · rw [mainStep_L33]
    refine ⟨rfl, rfl, rfl, ?_⟩
    intro e he
    rw [delay_trace_nop _ e he]
    exact Or.inl rfl

theorem run_blinking (n : Nat) (s : State) (h : s.pc.phase = .Blinking) :
    (run n s).pc.phase = .Blinking ∧
    (run n s).regs.RCC_APB2ENR = s.regs.RCC_APB2ENR ∧
    (run n s).regs.GPIOC_CRH = s.regs.GPIOC_CRH := by
  induction n generalizing s with
  | zero => exact ⟨h, rfl, rfl⟩
  | succ k ih =>
    obtain ⟨hp, hr, hc, _⟩ := mainStep_blinking s h
    obtain ⟨hp2, hr2, hc2⟩ := ih (mainStep s).1 hp
    exact ⟨hp2, hr2.trans hr, hc2.trans hc⟩

theorem trace_blinking (n : Nat) (s : State) (h : s.pc.phase = .Blinking) :
    ∀ e ∈ trace n s, e.reg = none ∨ e.reg = some .GPIOC_ODR := by
  induction n generalizing s with
  | zero =>
    intro e he
    simp [trace] at he
  | succ k ih =>
    obtain ⟨hp, _, _, he1⟩ := mainStep_blinking s h
    intro e he
    rw [trace, List.mem_append] at he
    rcases he with he | he
    · exact he1 e he
    · exact ih (mainStep s).1 hp e he

/-- After the first statement, no statement writes the clock-enable register
and control never comes back to the first statement. -/
theorem mainStep_rcc (s : State) (h : s.pc ≠ .L24) :
    (mainStep s).1.pc ≠ .L24 ∧ (mainStep s).1.regs.RCC_APB2ENR = s.regs.RCC_APB2ENR := by
  obtain ⟨pc, m⟩ := s
  cases pc
  · exact absurd rfl h
  · rw [mainStep_L27]
    simp
  · rw [mainStep_L28]
    simp
  · rw [mainStep_L31]
    simp
  · rw [mainStep_L32]
    simp
  · rw [mainStep_L33]
    simp
  · simp [mainStep]
  · simp [mainStep]

theorem run_rcc (n : Nat) (s : State) (h : s.pc ≠ .L24) :
    (run n s).regs.RCC_APB2ENR = s.regs.RCC_APB2ENR := by
  induction n generalizing s with
  | zero => rfl
  | succ k ih =>
    obtain ⟨hp, hr⟩ := mainStep_rcc s h
    rw [run, ih _ hp, hr]

/-- The program point after `n` statements from the entry of `main`. -/
theorem run_entry_pc (n : Nat) (m : Regs) :
    (n = 0 ∧ (run n (entry m)).pc = .L24) ∨ (n = 1 ∧ (run n (entry m)).pc = .L27) ∨
    (n = 2 ∧ (run n (entry m)).pc = .L28) ∨
    (3 ≤ n ∧ (run n (entry m)).pc.phase = .Blinking) := by
  rcases n with _ | _ | _ | k
  · exact Or.inl ⟨rfl, rfl⟩
  · refine Or.inr (Or.inl ⟨rfl, ?_⟩)
    simp [run, entry, mainStep_L24]
  · refine Or.inr (Or.inr (Or.inl ⟨rfl, ?_⟩))
    simp [run, entry, mainStep_L24, mainStep_L27]
  · refine Or.inr (Or.inr (Or.inr ⟨by omega, ?_⟩))
    have h3 : k + 1 + 1 + 1 = 3 + k := by omega
    rw [h3, run_add, run_configure]
    exact (run_blinking k ⟨.L31, configure m⟩ rfl).1

theorem count_toggle_iterations (k : Nat) (m : Regs) :
    (trace (3 * k) ⟨.L31, m⟩).countP Event.isToggle = k := by
  induction k generalizing m with
  | zero => rfl
  | succ j ih =>
    have h3 : 3 * (j + 1) = 3 + 3 * j := by omega
    have hz : (delay 500000).trace.countP Event.isToggle = 0 := by
      rw [List.countP_eq_zero]
      intro e he
      rw [delay_trace_nop _ e he]
      simp [Event.isToggle]
    rw [h3, trace_add, run_iteration, List.countP_append, ih, trace_iteration,
      List.countP_append, hz]
    simp [Event.isToggle, List.countP_cons]
    omega

/-- Where an element of a list can sit when the list starts with six known
elements. -/
theorem split_six {α : Type} (a1 a2 a3 a4 a5 a6 e : α) (pre post rest : List α)
    (h : pre ++ e :: post = a1 :: a2 :: a3 :: a4 :: a5 :: a6 :: rest) :
    (pre = [] ∧ e = a1) ∨ (pre = [a1] ∧ e = a2) ∨ (pre = [a1, a2] ∧ e = a3) ∨
    (pre = [a1, a2, a3] ∧ e = a4) ∨ (pre = [a1, a2, a3, a4] ∧ e = a5) ∨
    (pre = [a1, a2, a3, a4, a5] ∧ e = a6) ∨
    (∃ q, pre = a1 :: a2 :: a3 :: a4 :: a5 :: a6 :: q ∧ e ∈ rest) := by
  rcases pre with _ | ⟨p1, pre⟩
  · simp at h
    exact Or.inl ⟨rfl, h.1⟩
  rcases pre with _ | ⟨p2, pre⟩
  · simp at h
    exact Or.inr (Or.inl ⟨by rw [h.1], h.2.1⟩)
  rcases pre with _ | ⟨p3, pre⟩
  · simp at h
    exact Or.inr (Or.inr (Or.inl ⟨by rw [h.1, h.2.1], h.2.2.1⟩))
  rcases pre with _ | ⟨p4, pre⟩
  · simp at h
    exact Or.inr (Or.inr (Or.inr (Or.inl ⟨by rw [h.1, h.2.1, h.2.2.1], h.2.2.2.1⟩)))
  rcases pre with _ | ⟨p5, pre⟩
  · simp at h
    exact Or.inr (Or.inr (Or.inr (Or.inr (Or.inl
      ⟨by rw [h.1, h.2.1, h.2.2.1, h.2.2.2.1], h.2.2.2.2.1⟩))))
  rcases pre with _ | ⟨p6, pre⟩
  · simp at h
    exact Or.inr (Or.inr (Or.inr (Or.inr (Or.inr (Or.inl
      ⟨by rw [h.1, h.2.1, h.2.2.1, h.2.2.2.1, h.2.2.2.2.1], h.2.2.2.2.2.1⟩)))))
  · simp at h
    refine Or.inr (Or.inr (Or.inr (Or.inr (Or.inr (Or.inr ⟨pre, ?_, ?_⟩)))))
    · rw [h.1, h.2.1, h.2.2.1, h.2.2.2.1, h.2.2.2.2.1, h.2.2.2.2.2.1]
    · rw [← h.2.2.2.2.2.2]
      simp

/-! ## Verified properties -/

/-- C1: end-to-end scenario.  Starting from all three registers equal to zero,
the configuration phase leaves clock-enable = 0x00000010, pin-configuration =
0x00200000 and pin-data = 0; the first toggle (the fifth statement executed)
makes pin-data 0x00002000 and the second toggle (the eighth) makes it 0. -/
theorem end_to_end_scenario :
    configure ⟨0, 0, 0⟩ = ⟨0x00000010, 0x00200000, 0x00000000⟩ ∧
    run 3 (entry ⟨0, 0, 0⟩) = ⟨.L31, ⟨0x00000010, 0x00200000, 0x00000000⟩⟩ ∧
    run 4 (entry ⟨0, 0, 0⟩) = ⟨.L32, ⟨0x00000010, 0x00200000, 0x00000000⟩⟩ ∧
    run 5 (entry ⟨0, 0, 0⟩) = ⟨.L33, ⟨0x00000010, 0x00200000, 0x00002000⟩⟩ ∧
    run 7 (entry ⟨0, 0, 0⟩) = ⟨.L32, ⟨0x00000010, 0x00200000, 0x00002000⟩⟩ ∧
    run 8 (entry ⟨0, 0, 0⟩) = ⟨.L33, ⟨0x00000010, 0x00200000, 0x00000000⟩⟩ ∧
    toggle (configure ⟨0, 0, 0⟩) = ⟨0x00000010, 0x00200000, 0x00002000⟩ ∧
    toggle (toggle (configure ⟨0, 0, 0⟩)) = ⟨0x00000010, 0x00200000, 0x00000000⟩ := by
  decide

/-- C2: sibling-pin non-disturbance.  For every 32-bit initial value of the
pin-configuration register, the two statements at lines 27 and 28 leave it equal
to `(c AND 0xFF0FFFFF) OR 0x00200000`: every bit outside bits 20..23 keeps its
value and the field at bits 20..23 is exactly 2.  The same holds for the whole
configuration phase. -/
theorem crh_sibling_pins_undisturbed (m : Regs) (hc : m.GPIOC_CRH < 4294967296) :
    run 2 ⟨.L27, m⟩ =
      ⟨.L31, { m with GPIOC_CRH := (m.GPIOC_CRH &&& 0xFF0FFFFF) ||| 0x00200000 }⟩ ∧
    (configure m).GPIOC_CRH = (m.GPIOC_CRH &&& 0xFF0FFFFF) ||| 0x00200000 ∧
    (∀ i, i < 20 ∨ 24 ≤ i →
      ((m.GPIOC_CRH &&& 0xFF0FFFFF) ||| 0x00200000).testBit i = m.GPIOC_CRH.testBit i) ∧
    (((m.GPIOC_CRH &&& 0xFF0FFFFF) ||| 0x00200000) >>> 20) % 16 = 2 := by
  have h1 : u32 (m.GPIOC_CRH &&& 4279238655) = m.GPIOC_CRH &&& 4279238655 :=
    u32_of_lt (and_lt32 _ (by norm_num))
  have h2 : u32 (m.GPIOC_CRH &&& 4279238655 ||| 2097152) =
      m.GPIOC_CRH &&& 4279238655 ||| 2097152 :=
    u32_of_lt (or_lt32 (and_lt32 _ (by norm_num)) (by norm_num))
  refine ⟨?_, ?_, ?_, ?_⟩
  · simp [run, mainStep_L27, mainStep_L28, h1, h2]
  · rw [configure_eq]
    simp [h1, h2]
  · intro i hi
    rw [Nat.testBit_or, Nat.testBit_and, testBit_clear, testBit_2097152]
    by_cases h32 : i < 32
    · have h21 : ¬ (21 = i) := by omega
      rcases hi with hlt | hge
      · have h20 : ¬ (20 ≤ i) := by omega
        simp [h32, h21, h20]
      · have h24 : ¬ (i < 24) := by omega
        simp [h32, h21, h24]
    · have h21 : ¬ (21 = i) := by omega
      have hz : m.GPIOC_CRH.testBit i = false := testBit_of_lt32 hc (Nat.le_of_not_lt h32)
      simp [h32, h21, hz]
  · apply Nat.eq_of_testBit_eq
    intro i
    have h16 : (16 : Nat) = 2 ^ 4 := by norm_num
    rw [h16, Nat.testBit_mod_two_pow, Nat.testBit_shiftRight, Nat.testBit_or, Nat.testBit_and,
      testBit_clear, testBit_2097152]
    by_cases h4 : i < 4
    · interval_cases i <;> simp <;> decide
    · have h2 : Nat.testBit 2 i = false :=
        Nat.testBit_lt_two_pow (Nat.lt_of_lt_of_le (by decide : 2 < 2 ^ 4)
          (Nat.pow_le_pow_right (by decide) (by omega)))
      simp [h4, h2]

/-- Witness of C2 at an initial value with all sibling fields set. -/
theorem crh_sibling_pins_undisturbed_witness :
    (0xFFFFFFFF : Nat) < 4294967296 ∧
    (configure ⟨0, 0xFFFFFFFF, 0⟩).GPIOC_CRH = (0xFFFFFFFF &&& 0xFF0FFFFF) ||| 0x00200000 :=
  ⟨by decide, (crh_sibling_pins_undisturbed ⟨0, 0xFFFFFFFF, 0⟩ (by decide)).2.1⟩

/-- C4: for every 32-bit count `N`, `delay N` executes the `nop` of its loop
body exactly `N` times and nothing else; `delay 0` executes it zero times. -/
theorem delay_executes_body_N_times (N : Nat) (hN : N < 4294967296) :
    (delay N).trace = List.replicate N Event.nop ∧
    (delay N).trace.length = N ∧
    (delay N).trace.count Event.nop = N ∧
    (delay 0).trace = [] := by
  have h : (delay N).trace = List.replicate N Event.nop := by
    rw [delay_eq, u32_of_lt hN]
  refine ⟨h, ?_, ?_, ?_⟩
  · rw [h, List.length_replicate]
  · rw [h, List.count_replicate_self]
  · rw [delay_eq]
    rfl

/-- Witness of C4 at `N = 3`. -/
theorem delay_executes_body_N_times_witness :
    (3 : Nat) < 4294967296 ∧ (delay 3).trace = [Event.nop, Event.nop, Event.nop] :=
  ⟨by decide, (delay_executes_body_N_times 3 (by decide)).1⟩

/-- Bit 13 of the pin-data register after `k` toggle steps. -/
theorem toggle_iterate_bit (m : Regs) (k : Nat) :
    ((toggle^[k] m).GPIOC_ODR).testBit 13 =
      (m.GPIOC_ODR.testBit 13 ^^ decide (k % 2 = 1)) := by
  induction k with
  | zero => simp
  | succ j ih =>
    rw [Function.iterate_succ_apply', toggle_eq]
    simp only [testBit_u32, Nat.testBit_xor, testBit_8192, ih]
    rcases Nat.mod_two_eq_zero_or_one j with h | h
    · have h1 : (j + 1) % 2 = 1 := by omega
      simp [h, h1]
    · have h1 : ¬ ((j + 1) % 2 = 1) := by omega
      simp [h, h1]

/-- C5: toggle alternation.  From a pin-data value whose bit 13 is 0, after `k`
toggle steps bit 13 is 1 exactly when `k` is odd, both for the toggle statement
iterated on its own and for `k` iterations of the loop of `main`; and for every
32-bit value two successive toggle steps restore the register. -/
theorem toggle_alternates (m : Regs) (hd : m.GPIOC_ODR < 4294967296) :
    (m.GPIOC_ODR.testBit 13 = false →
      ∀ k, ((toggle^[k] m).GPIOC_ODR).testBit 13 = decide (k % 2 = 1) ∧
        ((run (3 * k) ⟨.L31, m⟩).regs.GPIOC_ODR).testBit 13 = decide (k % 2 = 1)) ∧
    toggle (toggle m) = m := by
  constructor
  · intro h0 k
    rw [run_iterations, toggle_iterate_bit, h0]
    simp
  · have h1 : u32 (m.GPIOC_ODR ^^^ 8192) = m.GPIOC_ODR ^^^ 8192 :=
      u32_of_lt (xor_lt32 hd (by norm_num))
    rw [toggle_eq, toggle_eq]
    simp only [h1, Nat.xor_cancel_right, u32_of_lt hd]

/-- Witness of C5 from the all-zero state, at three toggles. -/
theorem toggle_alternates_witness :
    (0 : Nat) < 4294967296 ∧ Nat.testBit 0 13 = false ∧
    ((toggle^[3] ⟨0, 0, 0⟩).GPIOC_ODR).testBit 13 = decide (3 % 2 = 1) ∧
    toggle (toggle ⟨0, 0, 0⟩) = ⟨0, 0, 0⟩ :=
  ⟨by decide, by decide,
    ((toggle_alternates ⟨0, 0, 0⟩ (by decide)).1 (by decide) 3).1,
    (toggle_alternates ⟨0, 0, 0⟩ (by decide)).2⟩

/-- C6: toggle frame.  For every 32-bit pin-data value `d`, the toggle statement
leaves the register equal to `d XOR 0x00002000`: bit 13 is flipped, every other
bit is unchanged, and the clock-enable and pin-configuration registers are not
changed. -/
theorem toggle_frame (m : Regs) (hd : m.GPIOC_ODR < 4294967296) :
    (mainStep ⟨.L32, m⟩).1 = ⟨.L33, { m with GPIOC_ODR := m.GPIOC_ODR ^^^ 0x00002000 }⟩ ∧
    toggle m = { m with GPIOC_ODR := m.GPIOC_ODR ^^^ 0x00002000 } ∧
    (m.GPIOC_ODR ^^^ 0x00002000).testBit 13 = !(m.GPIOC_ODR.testBit 13) ∧
    (∀ i, i ≠ 13 → (m.GPIOC_ODR ^^^ 0x00002000).testBit i = m.GPIOC_ODR.testBit i) ∧
    (toggle m).RCC_APB2ENR = m.RCC_APB2ENR ∧
    (toggle m).GPIOC_CRH = m.GPIOC_CRH := by
  have h1 : u32 (m.GPIOC_ODR ^^^ 8192) = m.GPIOC_ODR ^^^ 8192 :=
    u32_of_lt (xor_lt32 hd (by norm_num))
  refine ⟨?_, ?_, ?_, ?_, ?_, ?_⟩
  · rw [mainStep_L32, h1]
  · rw [toggle_eq, h1]
  · rw [Nat.testBit_xor, testBit_8192]
    simp
  · intro i hi
    have h13 : ¬ (13 = i) := fun h => hi h.symm
    rw [Nat.testBit_xor, testBit_8192]
    simp [h13]
  · rw [toggle_eq]
  · rw [toggle_eq]

/-- Witness of C6 at a value with bit 13 and other bits set. -/
theorem toggle_frame_witness :
    (0x0000A005 : Nat) < 4294967296 ∧
    toggle ⟨1, 2, 0x0000A005⟩ = ⟨1, 2, 0x00008005⟩ :=
  ⟨by decide, (toggle_frame ⟨1, 2, 0x0000A005⟩ (by decide)).2.1⟩

/-- C7: clock-enable step.  For every 32-bit initial value `r` of the
clock-enable register, the first statement of `main` leaves it equal to
`r OR 0x00000010`: bit 4 is set, every other bit keeps its value, and the other
two registers are not changed. -/
theorem clock_enable_step (m : Regs) (hr : m.RCC_APB2ENR < 4294967296) :
    (mainStep (entry m)).1 = ⟨.L27, { m with RCC_APB2ENR := m.RCC_APB2ENR ||| 0x00000010 }⟩ ∧
    (m.RCC_APB2ENR ||| 0x00000010).testBit 4 = true ∧
    (∀ i, i ≠ 4 → (m.RCC_APB2ENR ||| 0x00000010).testBit i = m.RCC_APB2ENR.testBit i) := by
  have h1 : u32 (m.RCC_APB2ENR ||| 16) = m.RCC_APB2ENR ||| 16 :=
    u32_of_lt (or_lt32 hr (by norm_num))
  refine ⟨?_, ?_, ?_⟩
  · rw [entry, mainStep_L24, h1]
  · rw [Nat.testBit_or, testBit_16]
    simp
  · intro i hi
    have h4 : ¬ (4 = i) := fun h => hi h.symm
    rw [Nat.testBit_or, testBit_16]
    simp [h4]

/-- Witness of C7 at a value with bit 4 clear and other bits set. -/
theorem clock_enable_step_witness :
    (0x80000001 : Nat) < 4294967296 ∧
    (mainStep (entry ⟨0x80000001, 0, 0⟩)).1 = ⟨.L27, ⟨0x80000011, 0, 0⟩⟩ :=
  ⟨by decide, (clock_enable_step ⟨0x80000001, 0, 0⟩ (by decide)).1⟩

/-- C10: `delay` terminates for every argument.  The loop of `delay`, run with
a bound on the number of evaluations of its condition, exits with the result of
the total function `delay` as soon as the bound exceeds the 32-bit count (so
after at most `2^32` evaluations), and not before; in particular for the
arguments 0 and `2^32 - 1`. -/
theorem delay_terminates (count extra : Nat) :
    delayLoopFuel (extra + (u32 count + 1)) (u32 count) = some (delay count) ∧
    u32 count + 1 ≤ 4294967296 ∧
    delayLoopFuel (u32 count) (u32 count) = none ∧
    delayLoopFuel (extra + 1) 0 = some (delay 0) ∧
    delayLoopFuel (extra + 4294967296) 4294967295 = some (delay 4294967295) := by
  refine ⟨delayLoopFuel_eq (u32 count) extra (u32_lt count), ?_,
    delayLoopFuel_short _ _ (u32_lt count) (Nat.le_refl _), ?_, ?_⟩
  · have := u32_lt count
    omega
  · exact delayLoopFuel_eq 0 extra (by norm_num)
  · exact delayLoopFuel_eq 4294967295 extra (by norm_num)

/-- C3: ordering of the register accesses.  In the accesses performed by the
first `n` statements of `main`, from any initial registers: the write setting
bit 4 of the clock-enable register is present as soon as anything is; every
access to the pin-configuration register, read or write, has that write before
it; and no access to the pin-configuration register comes before a write to the
clock-enable register. -/
theorem clock_enable_precedes_crh (m : Regs) (n : Nat) (pre post : List Event) (e : Event)
    (h : trace n (entry m) = pre ++ e :: post) :
    (∃ v, Event.write .RCC_APB2ENR v ∈ trace n (entry m) ∧ v.testBit 4 = true) ∧
    (e.reg = some .GPIOC_CRH →
      ∃ v, Event.write .RCC_APB2ENR v ∈ pre ∧ v.testBit 4 = true) ∧
    (∀ v, e = Event.write .RCC_APB2ENR v → ∀ x ∈ pre, x.reg ≠ some .GPIOC_CRH) := by
  have hbit : (u32 (m.RCC_APB2ENR ||| 16)).testBit 4 = true := by
    rw [testBit_u32, Nat.testBit_or, testBit_16]
    simp
  have hrest := trace_blinking n ⟨.L31, configure m⟩ rfl
  have key : pre ++ e :: (post ++ trace 3 (run n (entry m))) =
      trace 3 (entry m) ++ trace n ⟨.L31, configure m⟩ := by
    calc pre ++ e :: (post ++ trace 3 (run n (entry m)))
        = (pre ++ e :: post) ++ trace 3 (run n (entry m)) := by simp
      _ = trace (n + 3) (entry m) := by rw [← h, ← trace_add]
      _ = trace (3 + n) (entry m) := by rw [Nat.add_comm]
      _ = trace 3 (entry m) ++ trace n ⟨.L31, configure m⟩ := by
          rw [trace_add, run_configure]
  rw [trace_configure] at key
  refine ⟨?_, ?_, ?_⟩
  · rcases n with _ | k
    · simp [trace] at h
    · refine ⟨u32 (m.RCC_APB2ENR ||| 16), ?_, hbit⟩
      rw [trace, entry, mainStep_L24]
      simp
  · intro hc
    rcases split_six _ _ _ _ _ _ e pre _ _ key with
      ⟨hp, he⟩ | ⟨hp, he⟩ | ⟨hp, he⟩ | ⟨hp, he⟩ | ⟨hp, he⟩ | ⟨hp, he⟩ | ⟨q, hp, he⟩
    · rw [he] at hc
      simp [Event.reg] at hc
    · rw [he] at hc
      simp [Event.reg] at hc
    · exact ⟨_, by simp [hp], hbit⟩
    · exact ⟨_, by simp [hp], hbit⟩
    · exact ⟨_, by simp [hp], hbit⟩
    · exact ⟨_, by simp [hp], hbit⟩
    · rcases hrest e he with h0 | h0 <;> rw [h0] at hc <;> simp at hc
  · intro v hv x hx
    rcases split_six _ _ _ _ _ _ e pre _ _ key with
      ⟨hp, he⟩ | ⟨hp, he⟩ | ⟨hp, he⟩ | ⟨hp, he⟩ | ⟨hp, he⟩ | ⟨hp, he⟩ | ⟨q, hp, he⟩
    · rw [hp] at hx
      simp at hx
    · rw [hp] at hx
      simp at hx
      rw [hx]
      simp [Event.reg]
    · rw [he] at hv
      simp at hv
    · rw [he] at hv
      simp at hv
    · rw [he] at hv
      simp at hv
    · rw [he] at hv
      simp at hv
    · rw [hv] at he
      rcases hrest _ he with h0 | h0 <;> simp [Event.reg] at h0

/-- Witness of C3: the first access to the pin-configuration register in the
trace of the first two statements from the all-zero state. -/
theorem clock_enable_precedes_crh_witness :
    trace 2 (entry ⟨0, 0, 0⟩) =
      [Event.read .RCC_APB2ENR 0, Event.write .RCC_APB2ENR 16] ++
        Event.read .GPIOC_CRH 0 :: [Event.write .GPIOC_CRH 0] ∧
    ∃ v, Event.write .RCC_APB2ENR v ∈ [Event.read .RCC_APB2ENR 0, Event.write .RCC_APB2ENR 16] ∧
      v.testBit 4 = true :=
  ⟨by decide,
    (clock_enable_precedes_crh ⟨0, 0, 0⟩ 2 [Event.read .RCC_APB2ENR 0, Event.write .RCC_APB2ENR 16]
      [Event.write .GPIOC_CRH 0] (Event.read .GPIOC_CRH 0) (by decide)).2.1 rfl⟩

/-- C8: `main` never returns.  From every initial register state, no state
reached by executing statements of `main` is at `return 0` or past it; the
Blinking phase is entered after the three configuration statements and is
never left; and the first `3 + 3 * n` statements perform exactly `n` toggles,
so the execution performs at least `n` toggles for every `n`. -/
theorem main_never_returns (m : Regs) (n : Nat) :
    (run n (entry m)).pc ≠ .returned ∧
    (run n (entry m)).pc ≠ .L36 ∧
    (run n (entry m)).pc.phase ≠ .Returned ∧
    run 3 (entry m) = ⟨.L31, configure m⟩ ∧
    (run (3 + n) (entry m)).pc.phase = .Blinking ∧
    (trace (3 + 3 * n) (entry m)).countP Event.isToggle = n := by
  have hph : (run n (entry m)).pc.phase ≠ .Returned := by
    rcases run_entry_pc n m with ⟨_, h⟩ | ⟨_, h⟩ | ⟨_, h⟩ | ⟨_, h⟩ <;> rw [h] <;> simp [PC.phase]
  refine ⟨?_, ?_, hph, run_configure m, ?_, ?_⟩
  · intro hpc
    rw [hpc] at hph
    exact hph rfl
  · intro hpc
    rw [hpc] at hph
    exact hph rfl
  · rw [run_add, run_configure]
    exact (run_blinking n ⟨.L31, configure m⟩ rfl).1
  · rw [trace_add, run_configure, List.countP_append, count_toggle_iterations, trace_configure]
    simp [Event.isToggle, List.countP_cons]

/-- C9: the clock-enable bit is never cleared.  In every state reached after
the first statement of `main`, the clock-enable register still holds the value
that statement wrote, and its bit 4 is 1. -/
theorem clock_enable_never_cleared (m : Regs) (n : Nat) (hn : 1 ≤ n) :
    (run n (entry m)).regs.RCC_APB2ENR = (mainStep (entry m)).1.regs.RCC_APB2ENR ∧
    ((run n (entry m)).regs.RCC_APB2ENR).testBit 4 = true := by
  obtain ⟨k, rfl⟩ : ∃ k, n = k + 1 := ⟨n - 1, by omega⟩
  have hpc : (mainStep (entry m)).1.pc ≠ .L24 := by
    rw [entry, mainStep_L24]
    simp
  have hr : (run (k + 1) (entry m)).regs.RCC_APB2ENR = (mainStep (entry m)).1.regs.RCC_APB2ENR := by
    rw [run, run_rcc k _ hpc]
  refine ⟨hr, ?_⟩
  rw [hr, entry, mainStep_L24]
  simp only [testBit_u32, Nat.testBit_or, testBit_16]
  simp

/-- Witness of C9 after eight statements (two toggles) from the all-zero state. -/
theorem clock_enable_never_cleared_witness :
    1 ≤ 8 ∧ ((run 8 (entry ⟨0, 0, 0⟩)).regs.RCC_APB2ENR).testBit 4 = true :=
  ⟨by decide, (clock_enable_never_cleared ⟨0, 0, 0⟩ 8 (by decide)).2⟩

/-! ## Counter of `delay`, idempotence and frames -/

theorem replay_nops (m : Regs) (es : List Event) (h : ∀ e ∈ es, e = Event.nop) :
    m.replay es = m := by
  induction es with
  | nil => rfl
  | cons a t ih =>
    have ha : a = Event.nop := h a (List.mem_cons_self a t)
    have ht : ∀ e ∈ t, e = Event.nop := fun e he => h e (List.mem_cons_of_mem a he)
    rw [Regs.replay, List.foldl_cons, ha]
    exact ih ht

/-- The events a statement of `main` emits account for its effect on the
registers. -/
theorem mainStep_replay (s : State) : s.regs.replay (mainStep s).2 = (mainStep s).1.regs := by
  obtain ⟨pc, m⟩ := s
  cases pc
  · simp [mainStep, orAssign, Regs.replay, Event.effect]
  · simp [mainStep, andAssign, Regs.replay, Event.effect]
  · simp [mainStep, orAssign, Regs.replay, Event.effect]
  · simp [mainStep, Regs.replay]
  · simp [mainStep, xorAssign, Regs.replay, Event.effect]
  · rw [mainStep_L33]
    exact replay_nops m _ (delay_trace_nop 500000)
  · simp [mainStep, Regs.replay]
  · simp [mainStep, Regs.replay]

theorem delayLoop_trace_nil_iff (c : Nat) : (delayLoop c).trace = [] ↔ c = 0 := by
  constructor
  · intro h
    by_contra hc
    rw [delayLoop, delayLoopAt, dif_pos hc] at h
    simp at h
  · intro h
    rw [h, delayLoop_zero]

/-- C12 (as stated, refuted): after `delay 3` the counter is not 0 but
`0xFFFFFFFF`; the same holds after `delay 0`. -/
theorem delay_counter_not_zero_at_return :
    (delay 3).count ≠ 0 ∧ (delay 3).count = 0xFFFFFFFF ∧ (delay 0).count = 0xFFFFFFFF := by
  rw [delay_eq, delay_eq]
  decide

/-- C12 (amended): the loop of `delay` exits, without executing its body, exactly
when the value its condition reads from the counter is 0, after as many `nop`s
as the 32-bit count; the post-decrement of that last test wraps around, so when
`delay` returns the counter holds `2^32 - 1`, for every count. -/
theorem delay_counter_at_return (count : Nat) :
    (delay count).count = 4294967295 ∧
    (delay count).trace.length = u32 count ∧
    (∀ c, (delayLoop c).trace = [] ↔ c = 0) ∧
    delayLoop 0 = { count := 4294967295, trace := [] } := by
  refine ⟨?_, ?_, delayLoop_trace_nil_iff, delayLoop_zero⟩
  · rw [delay_eq]
  · rw [delay_eq, List.length_replicate]

theorem rcc_or_idem (r : Nat) : u32 (u32 (r ||| 16) ||| 16) = u32 (r ||| 16) := by
  apply Nat.eq_of_testBit_eq
  intro i
  simp only [testBit_u32, Nat.testBit_or, testBit_16]
  generalize decide (i < 32) = a
  generalize r.testBit i = b
  generalize decide (4 = i) = c
  revert a b c
  decide

theorem crh_mode_idem (c : Nat) :
    u32 (u32 (u32 (u32 (c &&& 4279238655) ||| 2097152) &&& 4279238655) ||| 2097152) =
      u32 (u32 (c &&& 4279238655) ||| 2097152) := by
  apply Nat.eq_of_testBit_eq
  intro i
  simp only [testBit_u32, Nat.testBit_or, Nat.testBit_and, testBit_clear, testBit_2097152]
  generalize decide (i < 32) = a
  generalize c.testBit i = b
  generalize decide (21 = i) = d
  generalize decide (20 ≤ i) = e
  generalize decide (i < 24) = f
  revert a b d e f
  decide

/-- C13: the configuration phase is idempotent.  For every register state,
running the three configuration statements on the state they produced gives
that state again, both as a function on the registers and as three statements
of `main` executed from its entry. -/
theorem configure_idempotent (m : Regs) :
    configure (configure m) = configure m ∧
    run 3 (entry (configure m)) = run 3 (entry m) := by
  have h : configure (configure m) = configure m := by
    rw [configure_eq (configure m), configure_eq m]
    simp only [rcc_or_idem, crh_mode_idem]
  exact ⟨h, by rw [run_configure, run_configure, h]⟩

/-- C14: register frame of the phases.  The configuration phase leaves the
pin-data register unchanged; in every state reached after configuration the
clock-enable and pin-configuration registers hold the values configuration gave
them; and every register write of the Blinking phase, the calls of `delay`
included, is a write to the pin-data register. -/
theorem phase_register_frame (m : Regs) (n : Nat) :
    (configure m).GPIOC_ODR = m.GPIOC_ODR ∧
    (run (3 + n) (entry m)).regs.RCC_APB2ENR = (configure m).RCC_APB2ENR ∧
    (run (3 + n) (entry m)).regs.GPIOC_CRH = (configure m).GPIOC_CRH ∧
    (∀ r v, Event.write r v ∈ trace n (run 3 (entry m)) → r = .GPIOC_ODR) ∧
    (∀ e ∈ (delay 500000).trace, e.reg = none) := by
  have hb := run_blinking n ⟨.L31, configure m⟩ rfl
  refine ⟨?_, ?_, ?_, ?_, ?_⟩
  · rw [configure_eq]
  · rw [run_add, run_configure]
    exact hb.2.1
  · rw [run_add, run_configure]
    exact hb.2.2
  · intro r v hmem
    rw [run_configure] at hmem
    rcases trace_blinking n ⟨.L31, configure m⟩ rfl _ hmem with h0 | h0
    · simp [Event.reg] at h0
    · simpa [Event.reg] using h0
  · intro e he
    rw [delay_trace_nop _ e he]
    rfl

/-- C15: `delay` touches no register and carries no state across calls.  For
every count and every register state, the events of `delay count` are `nop`s
only, so they leave all three registers as they were, and their number is the
32-bit value of the argument; the call in `main` leaves the registers unchanged
and emits the same events from every register state and in every iteration of
the loop. -/
theorem delay_stateless (count : Nat) (m : Regs) :
    (∀ e ∈ (delay count).trace, e = Event.nop) ∧
    m.replay (delay count).trace = m ∧
    (delay count).trace.length = u32 count ∧
    (mainStep ⟨.L33, m⟩).1.regs = m ∧
    (∀ m2 : Regs, (mainStep ⟨.L33, m2⟩).2 = (mainStep ⟨.L33, m⟩).2) ∧
    (∀ j, (run (3 * j + 2) ⟨.L31, m⟩).pc = .L33 ∧
      trace 1 (run (3 * j + 2) ⟨.L31, m⟩) = (delay 500000).trace) := by
  refine ⟨delay_trace_nop count, replay_nops m _ (delay_trace_nop count), ?_, ?_, ?_, ?_⟩
  · rw [delay_eq, List.length_replicate]
  · rw [mainStep_L33]
  · intro m2
    rw [mainStep_L33, mainStep_L33]
  · intro j
    have h2 : run 2 ⟨.L31, toggle^[j] m⟩ = ⟨.L33, toggle (toggle^[j] m)⟩ := by
      simp [run, mainStep_L31, mainStep_L32, toggle_eq]
    rw [run_add, run_iterations, h2]
    refine ⟨rfl, ?_⟩
    rw [trace, mainStep_L33]
    simp [trace]

/-! ## The events between two toggles -/

theorem delay_not_toggle (count : Nat) :
    ∀ x ∈ (delay count).trace, x.isToggle = false := by
  intro x hx
  rw [delay_trace_nop count x hx]
  rfl

theorem configure_not_toggle (m : Regs) : ∀ x ∈ trace 3 (entry m), x.isToggle = false := by
  intro x hx
  rw [trace_configure] at hx
  simp at hx
  rcases hx with h | h | h | h | h | h <;> rw [h] <;> rfl

/-- A toggle found in `D ++ R`, where `D` holds no toggle, lies in `R`. -/
theorem split_after_no_toggle (D R l2 : List Event) (W : Event)
    (hD : ∀ x ∈ D, x.isToggle = false) (hW : W.isToggle = true) (l1 : List Event)
    (h : l1 ++ W :: l2 = D ++ R) :
    ∃ l, l1 = D ++ l ∧ l ++ W :: l2 = R := by
  induction D generalizing l1 with
  | nil => exact ⟨l1, rfl, h⟩
  | cons a t ih =>
    have ht : ∀ x ∈ t, x.isToggle = false := fun x hx => hD x (List.mem_cons_of_mem a hx)
    rcases l1 with _ | ⟨b, l1⟩
    · simp only [List.nil_append, List.cons_append, List.cons.injEq] at h
      have ha := hD a (List.mem_cons_self a t)
      rw [← h.1, hW] at ha
      exact absurd ha (by decide)
    · simp only [List.cons_append, List.cons.injEq] at h
      obtain ⟨l, hl, hr⟩ := ih ht l1 h.2
      exact ⟨l, by rw [h.1, hl, List.cons_append], hr⟩

theorem trace_blink_succ (k : Nat) (m : Regs) :
    trace (3 * (k + 1)) ⟨.L31, m⟩ =
      Event.read .GPIOC_ODR m.GPIOC_ODR :: Event.write .GPIOC_ODR (u32 (m.GPIOC_ODR ^^^ 8192)) ::
        ((delay 500000).trace ++ trace (3 * k) ⟨.L31, toggle m⟩) := by
  have h3 : 3 * (k + 1) = 3 + 3 * k := by omega
  rw [h3, trace_add, run_iteration, trace_iteration]
  rfl

/-- Between two consecutive toggles of the Blinking phase lie the events of one
call `delay 500000` and the read of the next toggle. -/
theorem blink_gap (k : Nat) (m : Regs) (pre mid post : List Event) (v w : Nat)
    (h : trace (3 * k) ⟨.L31, m⟩ =
      pre ++ Event.write .GPIOC_ODR v :: (mid ++ Event.write .GPIOC_ODR w :: post))
    (hmid : ∀ x ∈ mid, x.isToggle = false) :
    ∃ d, mid = (delay 500000).trace ++ [Event.read .GPIOC_ODR d] := by
  induction k generalizing m pre with
  | zero =>
    simp [trace] at h
  | succ k ih =>
    rw [trace_blink_succ] at h
    rcases pre with _ | ⟨p1, pre⟩
    · simp at h
    rcases pre with _ | ⟨p2, pre⟩
    · simp only [List.cons_append, List.nil_append, List.cons.injEq] at h
      obtain ⟨l, hl, hr⟩ := split_after_no_toggle _ _ _ (Event.write .GPIOC_ODR w)
        (delay_not_toggle 500000) rfl mid h.2.2.symm
      rcases k with _ | j
      · simp [trace] at hr
      · rw [trace_blink_succ] at hr
        rcases l with _ | ⟨q1, l⟩
        · simp at hr
        rcases l with _ | ⟨q2, l⟩
        · simp only [List.cons_append, List.nil_append, List.cons.injEq] at hr
          exact ⟨_, by rw [hl, hr.1]⟩
        · simp only [List.cons_append, List.cons.injEq] at hr
          have hq : q2.isToggle = false := hmid q2 (by rw [hl]; simp)
          rw [hr.2.1] at hq
          exact absurd hq (by simp [Event.isToggle])
    · simp only [List.cons_append, List.cons.injEq] at h
      obtain ⟨l, hl, hr⟩ := split_after_no_toggle _ _ _ (Event.write .GPIOC_ODR v)
        (delay_not_toggle 500000) rfl pre h.2.2.symm
      exact ih (toggle m) l hr.symm

theorem delay_blink_trace : (delay 500000).trace = List.replicate 500000 Event.nop := by
  have hu : u32 500000 = 500000 := by decide
  rw [delay_eq, hu]

/-- C11: each Blinking iteration is one toggle followed by one call of `delay`
with the count 500000.  In the event trace of any number of statements of
`main`, from any registers, the events between two consecutive writes to the
pin-data register are exactly 500000 `nop`s followed by the read of the next
toggle; and every iteration of the loop emits the read and the write of the
toggle followed by 500000 `nop`s. -/
theorem blinking_iteration_delay (m : Regs) (n : Nat) (pre mid post : List Event) (v w : Nat)
    (h : trace n (entry m) =
      pre ++ Event.write .GPIOC_ODR v :: (mid ++ Event.write .GPIOC_ODR w :: post))
    (hmid : ∀ x ∈ mid, x.isToggle = false) :
    mid.count Event.nop = 500000 ∧
    (∃ d, mid = List.replicate 500000 Event.nop ++ [Event.read .GPIOC_ODR d]) ∧
    (∀ j, ∃ d, trace 3 (run (3 + 3 * j) (entry m)) =
      Event.read .GPIOC_ODR d :: Event.write .GPIOC_ODR (u32 (d ^^^ 8192)) ::
        List.replicate 500000 Event.nop) := by
  have key : pre ++ Event.write .GPIOC_ODR v ::
      (mid ++ Event.write .GPIOC_ODR w :: (post ++ trace (3 + 2 * n) (run n (entry m)))) =
      trace 3 (entry m) ++ trace (3 * n) ⟨.L31, configure m⟩ := by
    have hn : n + (3 + 2 * n) = 3 + 3 * n := by omega
    have h1 : trace (n + (3 + 2 * n)) (entry m) =
        trace n (entry m) ++ trace (3 + 2 * n) (run n (entry m)) := trace_add _ _ _
    have h2 : trace (3 + 3 * n) (entry m) =
        trace 3 (entry m) ++ trace (3 * n) (run 3 (entry m)) := trace_add _ _ _
    rw [hn, h2, run_configure, h] at h1
    rw [h1]
    simp
  obtain ⟨l, _, hl⟩ := split_after_no_toggle _ _ _ (Event.write .GPIOC_ODR v)
    (configure_not_toggle m) rfl pre key
  obtain ⟨d, hd⟩ := blink_gap n (configure m) l mid _ v w hl.symm hmid
  rw [delay_blink_trace] at hd
  refine ⟨?_, ⟨d, hd⟩, ?_⟩
  · rw [hd, List.count_append, List.count_replicate_self]
    rfl
  · intro j
    refine ⟨(toggle^[j] (configure m)).GPIOC_ODR, ?_⟩
    rw [run_add, run_configure, run_iterations, trace_iteration, delay_blink_trace]
    rfl

/-- Witness of C11: the two toggles among the first eight statements from the
all-zero state. -/
theorem blinking_iteration_delay_witness :
    trace 8 (entry ⟨0, 0, 0⟩) =
      [Event.read .RCC_APB2ENR 0, Event.write .RCC_APB2ENR 16, Event.read .GPIOC_CRH 0,
        Event.write .GPIOC_CRH 0, Event.read .GPIOC_CRH 0, Event.write .GPIOC_CRH 2097152,
        Event.read .GPIOC_ODR 0] ++
      Event.write .GPIOC_ODR 8192 ::
        (((delay 500000).trace ++ [Event.read .GPIOC_ODR 8192]) ++
          Event.write .GPIOC_ODR 0 :: []) ∧
    ((delay 500000).trace ++ [Event.read .GPIOC_ODR 8192]).count Event.nop = 500000 :=
  have h : trace 8 (entry ⟨0, 0, 0⟩) =
      [Event.read .RCC_APB2ENR 0, Event.write .RCC_APB2ENR 16, Event.read .GPIOC_CRH 0,
        Event.write .GPIOC_CRH 0, Event.read .GPIOC_CRH 0, Event.write .GPIOC_CRH 2097152,
        Event.read .GPIOC_ODR 0] ++
      Event.write .GPIOC_ODR 8192 ::
        (((delay 500000).trace ++ [Event.read .GPIOC_ODR 8192]) ++
          Event.write .GPIOC_ODR 0 :: []) := by
    simp [trace, entry, mainStep_L24, mainStep_L27, mainStep_L28, mainStep_L31, mainStep_L32,
      mainStep_L33, u32]
  have hmid : ∀ x ∈ (delay 500000).trace ++ [Event.read .GPIOC_ODR 8192],
      x.isToggle = false := by
    intro x hx
    rcases List.mem_append.1 hx with hx | hx
    · exact delay_not_toggle 500000 x hx
    · rw [List.mem_singleton.1 hx]
      rfl
  ⟨h, (blinking_iteration_delay ⟨0, 0, 0⟩ 8 _ _ _ 8192 0 h hmid).1⟩

end EmbeddedArm
